import Mathlib

/-!
Verification of the RSP utility and GDB-server state code of embdebug.

The definitions below are a shallow embedding of the C++ sources
`src/server/RspPacket.h` (the `Utils` hex / escape helpers) and
`src/server/GdbServer.h` (the `CoreManager` / `CoreState` classes and
the packet-size constant).  `char *` buffers are modelled as total maps
`Nat → Nat` from byte offsets to byte values, and in-place mutation as
functional update of such a map.  Machine integers are modelled as `Nat`
(or `Int` for the C `int` parameter of `char2Hex`) with explicit
`% 2 ^ 64` / `% 2 ^ 32` / `% 256` where C truncation happens.
-/

namespace EmbDebug

/-- Functional update of a byte buffer: models the C store `buf[i] = v`. -/
def wr (mem : Nat → Nat) (i v : Nat) : Nat → Nat :=
  fun j => if j = i then v else mem j

@[simp] theorem wr_same (mem : Nat → Nat) (i v : Nat) : wr mem i v i = v := by
  simp [wr]

theorem wr_other (mem : Nat → Nat) (i v j : Nat) (h : j ≠ i) : wr mem i v j = mem j := by
  simp [wr, h]

namespace Utils

/-- The 256-byte lookup table of `Utils::hex2Char` (RspPacket.h:97-116):
the ASCII codes of `"0123456789abcdef"` followed by 240 NUL bytes. -/
def hexCharMap : List Nat :=
  [48, 49, 50, 51, 52, 53, 54, 55, 56, 57, 97, 98, 99, 100, 101, 102] ++
    List.replicate 240 0

/-- `Utils::hex2Char` (RspPacket.h:97-116).  The parameter is a `uint8_t`,
hence the `% 256`; indices 16..255 of the table hold NUL. -/
def hex2Char (d : Nat) : Nat := hexCharMap.getD (d % 256) 0

/-- `Utils::char2Hex` (RspPacket.h:89-95).  The parameter is a C `int`
(modelled as `Int`); the chained conditionals test the ranges
`'a'..'f'` (97..102), `'0'..'9'` (48..57), `'A'..'F'` (65..70) in that
order and otherwise produce `-1`, and the `int` result is converted to
the `uint8_t` return type, i.e. taken mod 256 (so `-1` becomes 255). -/
def char2Hex (c : Int) : Nat :=
  ((if 97 ≤ c ∧ c ≤ 102 then c - 97 + 10
    else if 48 ≤ c ∧ c ≤ 57 then c - 48
    else if 65 ≤ c ∧ c ≤ 70 then c - 65 + 10
    else -1) % 256).toNat

/-- The little-endian loop of `Utils::regVal2Hex` (RspPacket.h:120-128):
iteration at write position `n` emits the two hex digits of
`byte = val & 0xff` at `buf[n*2]`, `buf[n*2+1]` and divides `val` by 256;
the extra argument counts the remaining iterations. -/
def regVal2HexLEAux (val : Nat) (buf : Nat → Nat) (n : Nat) : Nat → (Nat → Nat)
  | 0 => buf
  | numLeft + 1 =>
    let byte := val &&& 0xff
    let buf1 := wr buf (n * 2) (hex2Char ((byte >>> 4) &&& 0xf))
    let buf2 := wr buf1 (n * 2 + 1) (hex2Char (byte &&& 0xf))
    regVal2HexLEAux (val / 256) buf2 (n + 1) numLeft

/-- The big-endian loop of `Utils::regVal2Hex` (RspPacket.h:129-138):
`for (n = numBytes; n-- > 0;)` — the first iteration writes at position
`numBytes - 1`, the last at position 0, dividing `val` by 256 each time. -/
def regVal2HexBEAux (val : Nat) (buf : Nat → Nat) : Nat → (Nat → Nat)
  | 0 => buf
  | n + 1 =>
    let byte := val &&& 0xff
    let buf1 := wr buf (n * 2) (hex2Char ((byte >>> 4) &&& 0xf))
    let buf2 := wr buf1 (n * 2 + 1) (hex2Char (byte &&& 0xf))
    regVal2HexBEAux (val / 256) buf2 n

/-- `Utils::regVal2Hex` (RspPacket.h:118-141): renders the low `numBytes`
bytes of `val` as hex into `buf` in the chosen endianness and NUL
terminates at `buf[numBytes*2]`. -/
def regVal2Hex (val : Nat) (buf : Nat → Nat) (numBytes : Nat)
    (isLittleEndianP : Bool) : Nat → Nat :=
  let buf1 :=
    if isLittleEndianP then regVal2HexLEAux val buf 0 numBytes
    else regVal2HexBEAux val buf numBytes
  wr buf1 (numBytes * 2) 0

/-- The little-endian loop of `Utils::hex2RegVal` (RspPacket.h:147-151):
`for (n = numBytes; n-- > 0;)` reading the digit pair at position `n`
into the `uint64_t` accumulator (shift wraps mod `2 ^ 64`). -/
def hex2RegValLEAux (buf : Nat → Nat) : Nat → Nat → Nat
  | 0, val => val
  | n + 1, val =>
    let v1 := (val <<< 4) % 2 ^ 64 ||| char2Hex (buf (n * 2) : Int)
    let v2 := (v1 <<< 4) % 2 ^ 64 ||| char2Hex (buf (n * 2 + 1) : Int)
    hex2RegValLEAux buf n v2

/-- The big-endian loop of `Utils::hex2RegVal` (RspPacket.h:152-157):
`for (n = 0; n < numBytes; n++)`; the first argument counts the
remaining iterations, the second is the current position `n`. -/
def hex2RegValBEAux (buf : Nat → Nat) : Nat → Nat → Nat → Nat
  | 0, _, val => val
  | r + 1, n, val =>
    let v1 := (val <<< 4) % 2 ^ 64 ||| char2Hex (buf (n * 2) : Int)
    let v2 := (v1 <<< 4) % 2 ^ 64 ||| char2Hex (buf (n * 2 + 1) : Int)
    hex2RegValBEAux buf r (n + 1) v2

/-- `Utils::hex2RegVal` (RspPacket.h:143-160). -/
def hex2RegVal (buf : Nat → Nat) (numBytes : Nat) (isLittleEndianP : Bool) : Nat :=
  if isLittleEndianP then hex2RegValLEAux buf numBytes 0
  else hex2RegValBEAux buf numBytes 0 0

/-- The loop of `Utils::hex2Val` (RspPacket.h:185-192): positions
ascending, `val = (val << 4) | char2Hex (buf[i])` on a `uint64_t`. -/
def hex2ValAux (buf : Nat → Nat) : Nat → Nat → Nat → Nat
  | 0, _, val => val
  | r + 1, i, val =>
    hex2ValAux buf r (i + 1) ((val <<< 4) % 2 ^ 64 ||| char2Hex (buf i : Int))

/-- `Utils::hex2Val` (RspPacket.h:185-192). -/
def hex2Val (buf : Nat → Nat) (len : Nat) : Nat := hex2ValAux buf len 0 0

/-- The loop of `Utils::rspUnescape` (RspPacket.h:220-238), instrumented:
besides the final buffer and the returned `toOffset`, it also records the
list of indices read and the list of indices written, so that memory
safety can be stated.  When `buf[fromOffset] == '}'` (0x7d) the source
advances `fromOffset`, stores `buf[fromOffset] ^ 0x20` at `toOffset` and
advances both offsets again; otherwise it copies one byte. -/
def rspUnescapeLoop (mem : Nat → Nat) (len fromOffset toOffset : Nat) :
    ((Nat → Nat) × Nat) × (List Nat × List Nat) :=
  if h : fromOffset < len then
    if mem fromOffset = 0x7d then
      let mem2 := wr mem toOffset (mem (fromOffset + 1) ^^^ 0x20)
      let r := rspUnescapeLoop mem2 len (fromOffset + 2) (toOffset + 1)
      (r.1, (fromOffset :: (fromOffset + 1) :: r.2.1, toOffset :: r.2.2))
    else
      let mem2 := wr mem toOffset (mem fromOffset)
      let r := rspUnescapeLoop mem2 len (fromOffset + 1) (toOffset + 1)
      (r.1, (fromOffset :: r.2.1, toOffset :: r.2.2))
  else ((mem, toOffset), ([], []))
termination_by len - fromOffset

/-- `Utils::rspUnescape` (RspPacket.h:220-238): the final buffer and the
returned decoded length. -/
def rspUnescape (buf : Nat → Nat) (len : Nat) : (Nat → Nat) × Nat :=
  (rspUnescapeLoop buf len 0 0).1

/-- The decoding described by the specification, on the byte list held in
the buffer: a `}` prefixes one byte which is replaced by that byte XOR
0x20, every other byte is copied through unchanged.  (A trailing lone `}`
has no in-buffer byte to escape; this function drops it.) -/
def unescapeBytes : List Nat → List Nat
  | [] => []
  | [c] => if c = 0x7d then [] else [c]
  | c :: b :: rest =>
    if c = 0x7d then (b ^^^ 0x20) :: unescapeBytes rest
    else c :: unescapeBytes (b :: rest)

/-- The number of `}` escape prefixes consumed while decoding a byte list. -/
def escCount : List Nat → Nat
  | [] => 0
  | [c] => if c = 0x7d then 1 else 0
  | c :: b :: rest =>
    if c = 0x7d then 1 + escCount rest else escCount (b :: rest)

/-- A byte list is well formed for escape decoding when no `}` escape
starts at its final byte (every consumed escape byte lies in the list). -/
def noTrailingEsc : List Nat → Bool
  | [] => true
  | [c] => c != 0x7d
  | c :: b :: rest =>
    if c = 0x7d then noTrailingEsc rest else noTrailingEsc (b :: rest)

/-- Modelled from the spec: the escaping applied to an outgoing payload
by the send side (which lives in `RspConnection.cpp`, not under `src/`).
Per the spec, each byte in `{'#', '$', '}', '*'}` (0x23, 0x24, 0x7d,
0x2a) is emitted as `}` followed by the byte XOR 0x20; every other byte
is emitted unchanged. -/
def rspEscape : List Nat → List Nat
  | [] => []
  | b :: rest =>
    (if b = 0x23 ∨ b = 0x24 ∨ b = 0x7d ∨ b = 0x2a then [0x7d, b ^^^ 0x20]
     else [b]) ++ rspEscape rest

/-- The first `n` bytes of a buffer, as a list. -/
def listOf (mem : Nat → Nat) (n : Nat) : List Nat := (List.range n).map mem

end Utils

namespace ITarget

/-- Modelled from the spec: `ITarget.h` is not under `src/`.  Spec §6.2
lists the run termination causes `ResumeRes` as NONE (running, not
done), INTERRUPTED, STEPPED, BREAKPOINT, TIMEOUT, SYSCALL, EXITED,
FAILED; section 4.2.4 adds SUCCESS-like mapping only for these. -/
inductive ResumeRes where
  | NONE
  | INTERRUPTED
  | STEPPED
  | BREAKPOINT
  | TIMEOUT
  | SYSCALL
  | EXITED
  | FAILED
deriving DecidableEq

/-- Modelled from the spec: `ITarget.h` is not under `src/`.  The spec
data model gives `last_resume ∈ {None, Step, Continue}`. -/
inductive ResumeType where
  | NONE
  | STEP
  | CONTINUE
deriving DecidableEq

end ITarget

namespace GdbServer

/-- `GdbServer::RISCV_NUM_REGS` (GdbServer.h:88): 32 general registers
plus the PC. -/
def RISCV_NUM_REGS : Nat := 33

/-- Modelled from the spec: `sizeof (uint_reg_t)` comes from
`embdebug/RegisterSizes.h`, which is not under `src/`; the spec fixes
the register width at 4 bytes (32-bit RISC-V, "4 bytes each"). -/
def sizeofUintRegT : Nat := 4

/-- `GdbServer::RISCV_NUM_REG_BYTES` (GdbServer.h:92). -/
def RISCV_NUM_REG_BYTES : Nat := RISCV_NUM_REGS * sizeofUintRegT

/-- `GdbServer::RSP_PKT_SIZE` (GdbServer.h:98-99). -/
def RSP_PKT_SIZE : Nat :=
  if RISCV_NUM_REG_BYTES * 2 + 1 < 256 then 256 else RISCV_NUM_REG_BYTES * 2 + 1

namespace CoreManager

/-- The fields of `GdbServer::CoreManager::CoreState` (GdbServer.h:206-250). -/
structure CoreState where
  mStopReason : ITarget.ResumeRes
  mResumeType : ITarget.ResumeType
  mStopReported : Bool
  mIsLive : Bool
deriving DecidableEq

namespace CoreState

/-- The `CoreState` default constructor (GdbServer.h:208-213). -/
def init : CoreState :=
  { mStopReason := ITarget.ResumeRes.INTERRUPTED,
    mResumeType := ITarget.ResumeType.NONE,
    mStopReported := true,
    mIsLive := true }

/-- `CoreState::killCore` (GdbServer.h:215). -/
def killCore (s : CoreState) : CoreState := { s with mIsLive := false }

/-- `CoreState::isLive` (GdbServer.h:217). -/
def isLive (s : CoreState) : Bool := s.mIsLive

/-- `CoreState::stopReason` (GdbServer.h:219). -/
def stopReason (s : CoreState) : ITarget.ResumeRes := s.mStopReason

/-- `CoreState::isRunning` (GdbServer.h:221-223). -/
def isRunning (s : CoreState) : Bool :=
  decide (s.mResumeType ≠ ITarget.ResumeType.NONE)

/-- `CoreState::hasUnreportedStop` (GdbServer.h:225). -/
def hasUnreportedStop (s : CoreState) : Bool := !s.mStopReported

/-- `CoreState::reportStopReason` (GdbServer.h:227). -/
def reportStopReason (s : CoreState) : CoreState := { s with mStopReported := true }

/-- `CoreState::setStopReason` (GdbServer.h:229-232): records `res` and
marks it reported exactly when `res == ITarget::ResumeRes::NONE`. -/
def setStopReason (s : CoreState) (res : ITarget.ResumeRes) : CoreState :=
  { s with mStopReason := res,
           mStopReported := decide (res = ITarget.ResumeRes.NONE) }

/-- `CoreState::setResumeType` (GdbServer.h:234). -/
def setResumeType (s : CoreState) (t : ITarget.ResumeType) : CoreState :=
  { s with mResumeType := t }

end CoreState

end CoreManager

/-- The fields of `GdbServer::CoreManager` (GdbServer.h:262-274); the
`std::vector<CoreState>` is a list. -/
structure CoreManager where
  mNumCores : Nat
  mLiveCores : Nat
  mCoreStates : List CoreManager.CoreState

/-- `CoreManager::pid2CoreNum` (GdbServer.h:190), on `unsigned int`
(arithmetic mod `2 ^ 32`, so `pid - 1` wraps at 0). -/
def CoreManager.pid2CoreNum (pid : Nat) : Nat := (pid + 2 ^ 32 - 1) % 2 ^ 32

/-- `CoreManager::coreNum2Pid` (GdbServer.h:192-194), on `unsigned int`. -/
def CoreManager.coreNum2Pid (coreNum : Nat) : Nat := (coreNum + 1) % 2 ^ 32

/-- `CoreManager::operator[]` (GdbServer.h:252-255): `assert (idx <
mNumCores)` aborts when the index is out of range — modelled as `none` —
and otherwise the `std::vector` element at `idx` is returned. -/
def CoreManager.get (m : CoreManager) (idx : Nat) : Option CoreManager.CoreState :=
  if idx < m.mNumCores then m.mCoreStates.get? idx else none

end GdbServer
/-! ## The unescape loop against its list-level description -/

namespace Utils

theorem rspUnescapeLoop_step_esc (mem : Nat → Nat) (len f t : Nat)
    (hf : f < len) (hc : mem f = 0x7d) :
    rspUnescapeLoop mem len f t =
      ((rspUnescapeLoop (wr mem t (mem (f + 1) ^^^ 0x20)) len (f + 2) (t + 1)).1,
       (f :: (f + 1) ::
          (rspUnescapeLoop (wr mem t (mem (f + 1) ^^^ 0x20)) len (f + 2) (t + 1)).2.1,
        t :: (rspUnescapeLoop (wr mem t (mem (f + 1) ^^^ 0x20)) len (f + 2) (t + 1)).2.2)) := by
  rw [rspUnescapeLoop]
  simp [hf, hc]

theorem rspUnescapeLoop_step_copy (mem : Nat → Nat) (len f t : Nat)
    (hf : f < len) (hc : mem f ≠ 0x7d) :
    rspUnescapeLoop mem len f t =
      ((rspUnescapeLoop (wr mem t (mem f)) len (f + 1) (t + 1)).1,
       (f :: (rspUnescapeLoop (wr mem t (mem f)) len (f + 1) (t + 1)).2.1,
        t :: (rspUnescapeLoop (wr mem t (mem f)) len (f + 1) (t + 1)).2.2)) := by
  rw [rspUnescapeLoop]
  simp [hf, hc]

theorem rspUnescapeLoop_done (mem : Nat → Nat) (len f t : Nat) (hf : ¬ f < len) :
    rspUnescapeLoop mem len f t = ((mem, t), ([], [])) := by
  rw [rspUnescapeLoop]
  simp [hf]

theorem escCount_le (L : List Nat) : escCount L ≤ L.length := by
  induction L using escCount.induct with
  | case1 => simp [escCount]
  | case2 => simp [escCount]
  | case3 c h => simp [escCount, h]
  | case4 b rest ih =>
    have h2 : escCount (0x7d :: b :: rest) = 1 + escCount rest := by
      simp [escCount]
    simp only [h2, List.length_cons]
    omega
  | case5 c b rest h ih =>
    have h2 : escCount (c :: b :: rest) = escCount (b :: rest) := by
      simp [escCount, h]
    simp only [List.length_cons] at ih
    simp only [h2, List.length_cons]
    omega

theorem unescapeBytes_length (L : List Nat) :
    (unescapeBytes L).length = L.length - escCount L := by
  induction L using unescapeBytes.induct with
  | case1 => simp [unescapeBytes, escCount]
  | case2 => simp [unescapeBytes, escCount]
  | case3 c h => simp [unescapeBytes, escCount, h]
  | case4 b rest ih =>
    have h2 : escCount (0x7d :: b :: rest) = 1 + escCount rest := by
      simp [escCount]
    have h3 : unescapeBytes (0x7d :: b :: rest) = (b ^^^ 0x20) :: unescapeBytes rest := by
      simp [unescapeBytes]
    have h4 := escCount_le rest
    simp only [h2, h3, List.length_cons]
    omega
  | case5 c b rest h ih =>
    have h2 : escCount (c :: b :: rest) = escCount (b :: rest) := by
      simp [escCount, h]
    have h3 : unescapeBytes (c :: b :: rest) = c :: unescapeBytes (b :: rest) := by
      simp [unescapeBytes, h]
    have h4 := escCount_le (b :: rest)
    simp only [List.length_cons] at ih h4
    simp only [h2, h3, List.length_cons]
    omega

/-- The central bridge lemma: started at offsets `toOffset ≤ fromOffset`
with the well-formed byte list `L` held at `fromOffset`, the
instrumented loop of `Utils::rspUnescape` returns
`toOffset + |unescapeBytes L|`, leaves the buffer below `toOffset`
untouched, deposits `unescapeBytes L` at `toOffset`, and every index it
reads or writes is below `len`. -/
theorem rspUnescapeLoop_spec (L : List Nat) :
    ∀ (mem : Nat → Nat) (f t : Nat),
      t ≤ f →
      (∀ i, i < L.length → mem (f + i) = L.getD i 0) →
      noTrailingEsc L = true →
      (rspUnescapeLoop mem (f + L.length) f t).1.2 = t + (unescapeBytes L).length ∧
      (∀ j, j < t → (rspUnescapeLoop mem (f + L.length) f t).1.1 j = mem j) ∧
      (∀ i, i < (unescapeBytes L).length →
        (rspUnescapeLoop mem (f + L.length) f t).1.1 (t + i)
          = (unescapeBytes L).getD i 0) ∧
      (∀ i ∈ (rspUnescapeLoop mem (f + L.length) f t).2.1, i < f + L.length) ∧
      (∀ i ∈ (rspUnescapeLoop mem (f + L.length) f t).2.2, i < f + L.length) := by
  induction L using unescapeBytes.induct with
  | case1 =>
    intro mem f t ht hagree hwf
    rw [rspUnescapeLoop_done mem _ f t (by simp)]
    simp [unescapeBytes]
  | case2 =>
    intro mem f t ht hagree hwf
    simp [noTrailingEsc] at hwf
  | case3 c hcne =>
    intro mem f t ht hagree hwf
    have hc : mem f = c := by simpa using hagree 0 (by simp)
    have hlen : (f + [c].length) = f + 1 := by simp
    rw [hlen, rspUnescapeLoop_step_copy mem (f + 1) f t (by omega) (by rw [hc]; exact hcne),
      rspUnescapeLoop_done _ _ (f + 1) (t + 1) (by omega)]
    dsimp only
    have hU : unescapeBytes [c] = [c] := by simp [unescapeBytes, hcne]
    refine ⟨by simp [hU], ?_, ?_, ?_, ?_⟩
    · intro j hj
      exact wr_other mem t (mem f) j (by omega)
    · intro i hi
      rw [hU] at hi ⊢
      simp only [List.length_cons, List.length_nil] at hi
      have hi0 : i = 0 := by omega
      subst hi0
      show wr mem t (mem f) (t + 0) = _
      simp [wr, hc]
    · intro i hi
      simp only [List.mem_cons, List.not_mem_nil, or_false] at hi
      omega
    · intro i hi
      simp only [List.mem_cons, List.not_mem_nil, or_false] at hi
      omega
  | case4 b rest ih =>
    intro mem f t ht hagree hwf
    have hc : mem f = 0x7d := by simpa using hagree 0 (by simp)
    have hb : mem (f + 1) = b := by simpa using hagree 1 (by simp)
    have hwf2 : noTrailingEsc rest = true := by simpa [noTrailingEsc] using hwf
    have hlen : f + (0x7d :: b :: rest).length = (f + 2) + rest.length := by
      simp only [List.length_cons]
      omega
    rw [hlen, rspUnescapeLoop_step_esc mem _ f t (by omega) hc]
    dsimp only
    have hagree2 : ∀ i, i < rest.length →
        wr mem t (mem (f + 1) ^^^ 0x20) (f + 2 + i) = rest.getD i 0 := by
      intro i hi
      rw [wr_other mem t _ _ (by omega)]
      have h := hagree (i + 2) (by simp only [List.length_cons]; omega)
      rw [show f + (i + 2) = f + 2 + i by omega] at h
      exact h.trans rfl
    have hIH := ih (wr mem t (mem (f + 1) ^^^ 0x20)) (f + 2) (t + 1) (by omega) hagree2 hwf2
    have hU : unescapeBytes (0x7d :: b :: rest) = (b ^^^ 0x20) :: unescapeBytes rest := by
      simp [unescapeBytes]
    refine ⟨?_, ?_, ?_, ?_, ?_⟩
    · rw [hIH.1, hU]
      simp only [List.length_cons]
      omega
    · intro j hj
      rw [hIH.2.1 j (by omega), wr_other mem t _ j (by omega)]
    · intro i hi
      rw [hU] at hi ⊢
      match i with
      | 0 =>
        have h0 := hIH.2.1 (t + 0) (by omega)
        rw [h0]
        have : wr mem t (mem (f + 1) ^^^ 0x20) (t + 0) = b ^^^ 0x20 := by
          simp [wr, hb]
        rw [this]
        rfl
      | i' + 1 =>
        have h1 := hIH.2.2.1 i' (by simp only [List.length_cons] at hi; omega)
        rw [show t + (i' + 1) = t + 1 + i' by omega]
        exact h1.trans rfl
    · intro i hi
      simp only [List.mem_cons] at hi
      rcases hi with h1 | h1 | h1
      · omega
      · omega
      · have := hIH.2.2.2.1 i h1
        omega
    · intro i hi
      simp only [List.mem_cons] at hi
      rcases hi with h1 | h1
      · omega
      · have := hIH.2.2.2.2 i h1
        omega
  | case5 c b rest hcne ih =>
    intro mem f t ht hagree hwf
    have hc : mem f = c := by simpa using hagree 0 (by simp)
    have hwf2 : noTrailingEsc (b :: rest) = true := by
      simpa [noTrailingEsc, hcne] using hwf
    have hlen : f + (c :: b :: rest).length = (f + 1) + (b :: rest).length := by
      simp only [List.length_cons]
      omega
    rw [hlen, rspUnescapeLoop_step_copy mem _ f t (by omega) (by rw [hc]; exact hcne)]
    dsimp only
    have hagree2 : ∀ i, i < (b :: rest).length →
        wr mem t (mem f) (f + 1 + i) = (b :: rest).getD i 0 := by
      intro i hi
      rw [wr_other mem t _ _ (by omega)]
      have h := hagree (i + 1) (by simp only [List.length_cons] at hi ⊢; omega)
      rw [show f + (i + 1) = f + 1 + i by omega] at h
      exact h.trans rfl
    have hIH := ih (wr mem t (mem f)) (f + 1) (t + 1) (by omega) hagree2 hwf2
    have hU : unescapeBytes (c :: b :: rest) = c :: unescapeBytes (b :: rest) := by
      simp [unescapeBytes, hcne]
    refine ⟨?_, ?_, ?_, ?_, ?_⟩
    · rw [hIH.1, hU]
      simp only [List.length_cons]
      omega
    · intro j hj
      rw [hIH.2.1 j (by omega), wr_other mem t _ j (by omega)]
    · intro i hi
      rw [hU] at hi ⊢
      match i with
      | 0 =>
        have h0 := hIH.2.1 (t + 0) (by omega)
        rw [h0]
        have : wr mem t (mem f) (t + 0) = c := by simp [wr, hc]
        rw [this]
        rfl
      | i' + 1 =>
        have h1 := hIH.2.2.1 i' (by simp only [List.length_cons] at hi; omega)
        rw [show t + (i' + 1) = t + 1 + i' by omega]
        exact h1.trans rfl
    · intro i hi
      simp only [List.mem_cons] at hi
      rcases hi with h1 | h1
      · omega
      · have := hIH.2.2.2.1 i h1
        omega
    · intro i hi
      simp only [List.mem_cons] at hi
      rcases hi with h1 | h1
      · omega
      · have := hIH.2.2.2.2 i h1
        omega

/-- When the byte list ends in a `}` that starts an escape, the loop of
`Utils::rspUnescape` reads one index past the end of the region holding
the list. -/
theorem rspUnescapeLoop_oob (L : List Nat) :
    ∀ (mem : Nat → Nat) (f t : Nat),
      t ≤ f →
      (∀ i, i < L.length → mem (f + i) = L.getD i 0) →
      noTrailingEsc L = false →
      (f + L.length) ∈ (rspUnescapeLoop mem (f + L.length) f t).2.1 := by
  induction L using unescapeBytes.induct with
  | case1 =>
    intro mem f t ht hagree hwf
    simp [noTrailingEsc] at hwf
  | case2 =>
    intro mem f t ht hagree hwf
    have hc : mem f = 0x7d := by simpa using hagree 0 (by simp)
    have hlen : (f + [(0x7d : Nat)].length) = f + 1 := by simp
    rw [hlen, rspUnescapeLoop_step_esc mem (f + 1) f t (by omega) hc]
    simp
  | case3 c hcne =>
    intro mem f t ht hagree hwf
    simp [noTrailingEsc] at hwf
    exact absurd hwf hcne
  | case4 b rest ih =>
    intro mem f t ht hagree hwf
    have hc : mem f = 0x7d := by simpa using hagree 0 (by simp)
    have hwf2 : noTrailingEsc rest = false := by simpa [noTrailingEsc] using hwf
    have hlen : f + (0x7d :: b :: rest).length = (f + 2) + rest.length := by
      simp only [List.length_cons]
      omega
    rw [hlen, rspUnescapeLoop_step_esc mem _ f t (by omega) hc]
    dsimp only
    have hagree2 : ∀ i, i < rest.length →
        wr mem t (mem (f + 1) ^^^ 0x20) (f + 2 + i) = rest.getD i 0 := by
      intro i hi
      rw [wr_other mem t _ _ (by omega)]
      have h := hagree (i + 2) (by simp only [List.length_cons]; omega)
      rw [show f + (i + 2) = f + 2 + i by omega] at h
      exact h.trans rfl
    have hIH := ih (wr mem t (mem (f + 1) ^^^ 0x20)) (f + 2) (t + 1) (by omega) hagree2 hwf2
    simp only [List.mem_cons]
    exact Or.inr (Or.inr hIH)
  | case5 c b rest hcne ih =>
    intro mem f t ht hagree hwf
    have hc : mem f = c := by simpa using hagree 0 (by simp)
    have hwf2 : noTrailingEsc (b :: rest) = false := by
      simpa [noTrailingEsc, hcne] using hwf
    have hlen : f + (c :: b :: rest).length = (f + 1) + (b :: rest).length := by
      simp only [List.length_cons]
      omega
    rw [hlen, rspUnescapeLoop_step_copy mem _ f t (by omega) (by rw [hc]; exact hcne)]
    dsimp only
    have hagree2 : ∀ i, i < (b :: rest).length →
        wr mem t (mem f) (f + 1 + i) = (b :: rest).getD i 0 := by
      intro i hi
      rw [wr_other mem t _ _ (by omega)]
      have h := hagree (i + 1) (by simp only [List.length_cons] at hi ⊢; omega)
      rw [show f + (i + 1) = f + 1 + i by omega] at h
      exact h.trans rfl
    have hIH := ih (wr mem t (mem f)) (f + 1) (t + 1) (by omega) hagree2 hwf2
    simp only [List.mem_cons]
    exact Or.inr hIH

theorem noTrailingEsc_rspEscape (bs : List Nat) : noTrailingEsc (rspEscape bs) = true := by
  induction bs with
  | nil => rfl
  | cons b rest ih =>
    by_cases hb : b = 0x23 ∨ b = 0x24 ∨ b = 0x7d ∨ b = 0x2a
    · rw [show rspEscape (b :: rest) = 0x7d :: (b ^^^ 0x20) :: rspEscape rest from by
        simp [rspEscape, hb]]
      simpa [noTrailingEsc] using ih
    · have hbne : b ≠ 0x7d := by push_neg at hb; exact hb.2.2.1
      rw [show rspEscape (b :: rest) = b :: rspEscape rest from by simp [rspEscape, hb]]
      cases hres : rspEscape rest with
      | nil => simp [noTrailingEsc, hbne]
      | cons x xs =>
        rw [hres] at ih
        simpa [noTrailingEsc, hbne] using ih

theorem unescapeBytes_rspEscape (bs : List Nat) : unescapeBytes (rspEscape bs) = bs := by
  induction bs with
  | nil => rfl
  | cons b rest ih =>
    by_cases hb : b = 0x23 ∨ b = 0x24 ∨ b = 0x7d ∨ b = 0x2a
    · rw [show rspEscape (b :: rest) = 0x7d :: (b ^^^ 0x20) :: rspEscape rest from by
        simp [rspEscape, hb]]
      rw [show unescapeBytes (0x7d :: (b ^^^ 0x20) :: rspEscape rest)
            = ((b ^^^ 0x20) ^^^ 0x20) :: unescapeBytes (rspEscape rest) from by
        simp [unescapeBytes]]
      rw [Nat.xor_cancel_right, ih]
    · have hbne : b ≠ 0x7d := by push_neg at hb; exact hb.2.2.1
      rw [show rspEscape (b :: rest) = b :: rspEscape rest from by simp [rspEscape, hb]]
      cases hres : rspEscape rest with
      | nil =>
        rw [hres] at ih
        have hrest : rest = [] := by simpa [unescapeBytes] using ih.symm
        subst hrest
        simp [unescapeBytes, hbne]
      | cons x xs =>
        rw [hres] at ih
        rw [show unescapeBytes (b :: x :: xs) = b :: unescapeBytes (x :: xs) from by
          simp [unescapeBytes, hbne]]
        rw [ih]

end Utils

/-! ## Theorems about the escape codec (claims C2, C3, C9) -/

open Utils in
/-- C2 (amended): for every buffer holding a byte list `L` that does not
end in an unescaped `}` (every escape prefix has its escaped byte inside
the buffer), `rspUnescape` replaces each byte prefixed by `}` with that
byte XOR 0x20, copies every other byte through unchanged, and returns
the decoded length `len` minus the number of `}` escape prefixes
consumed. -/
theorem rspUnescape_spec (L : List Nat) (mem : Nat → Nat) (len : Nat)
    (hlen : len = L.length)
    (hagree : ∀ i, i < L.length → mem i = L.getD i 0)
    (hwf : noTrailingEsc L = true) :
    (rspUnescape mem len).2 = len - escCount L ∧
    (∀ i, i < (rspUnescape mem len).2 →
      (rspUnescape mem len).1 i = (unescapeBytes L).getD i 0) := by
  subst hlen
  have h := rspUnescapeLoop_spec L mem 0 0 (Nat.le_refl 0)
    (by intro i hi; simpa using hagree i hi) hwf
  simp only [Nat.zero_add] at h
  constructor
  · show (rspUnescapeLoop mem L.length 0 0).1.2 = L.length - escCount L
    rw [h.1, unescapeBytes_length]
  · intro i hi
    show (rspUnescapeLoop mem L.length 0 0).1.1 i = (unescapeBytes L).getD i 0
    have hi2 : i < (unescapeBytes L).length := by
      have := h.1
      revert hi
      show i < (rspUnescapeLoop mem L.length 0 0).1.2 → _
      rw [this]
      omega
    simpa using h.2.2.1 i hi2

open Utils in
/-- C2 counterexample: on the one-byte buffer `"}"` the lone `}` is
consumed as an escape prefix (the escaped byte is read from beyond the
buffer) yet one output byte is still produced, so the returned length is
1, not `len - (number of escape prefixes) = 1 - 1 = 0`. -/
theorem rspUnescape_cex :
    (rspUnescape (fun _ => 0x7d) 1).2 ≠ 1 - escCount [0x7d] := by
  have h1 : (rspUnescape (fun _ => 0x7d) 1).2 = 1 := by
    show (rspUnescapeLoop (fun _ => 0x7d) 1 0 0).1.2 = 1
    rw [rspUnescapeLoop]
    norm_num
    rw [rspUnescapeLoop]
    norm_num
  rw [h1]
  decide

open Utils in
/-- Witness for C2 on the buffer `"} ^C A"` = `[0x7d, 0x03, 0x41]`: the
escape pair decodes to `0x23`, the plain byte is copied, and the
returned length is `3 - 1 = 2`. -/
theorem rspUnescape_spec_witness :
    (rspUnescape (fun i => [0x7d, 0x03, 0x41].getD i 0) 3).2 = 2 ∧
    (rspUnescape (fun i => [0x7d, 0x03, 0x41].getD i 0) 3).1 0 = 0x23 ∧
    (rspUnescape (fun i => [0x7d, 0x03, 0x41].getD i 0) 3).1 1 = 0x41 := by
  have h := rspUnescape_spec [0x7d, 0x03, 0x41] (fun i => [0x7d, 0x03, 0x41].getD i 0) 3
    rfl (fun i _ => rfl) (by decide)
  have h2 : (rspUnescape (fun i => [0x7d, 0x03, 0x41].getD i 0) 3).2 = 2 :=
    h.1.trans (by decide)
  refine ⟨h2, ?_, ?_⟩
  · exact (h.2 0 (by rw [h2]; norm_num)).trans (by decide)
  · exact (h.2 1 (by rw [h2]; norm_num)).trans (by decide)

open Utils in
/-- C3: encoding any byte sequence as the send side does (each byte in
`{'#', '$', '}', '*'}` replaced by `}` followed by the byte XOR 0x20,
all other bytes unchanged) and then decoding with `rspUnescape` yields
exactly the original sequence, with its original length. -/
theorem escape_unescape_roundtrip (bs : List Nat) (mem : Nat → Nat)
    (hagree : ∀ i, i < (rspEscape bs).length → mem i = (rspEscape bs).getD i 0) :
    (rspUnescape mem (rspEscape bs).length).2 = bs.length ∧
    (∀ i, i < bs.length →
      (rspUnescape mem (rspEscape bs).length).1 i = bs.getD i 0) := by
  have h := rspUnescapeLoop_spec (rspEscape bs) mem 0 0 (Nat.le_refl 0)
    (by intro i hi; simpa using hagree i hi) (noTrailingEsc_rspEscape bs)
  simp only [Nat.zero_add, unescapeBytes_rspEscape] at h
  constructor
  · show (rspUnescapeLoop mem (rspEscape bs).length 0 0).1.2 = bs.length
    rw [h.1]
  · intro i hi
    show (rspUnescapeLoop mem (rspEscape bs).length 0 0).1.1 i = bs.getD i 0
    simpa using h.2.2.1 i hi

open Utils in
/-- Witness for C3 on the sequence `['$', NUL, 'A']`, whose encoding
contains an escape pair for `'$'`. -/
theorem escape_unescape_roundtrip_witness :
    (rspUnescape (fun i => (rspEscape [0x24, 0x00, 0x41]).getD i 0)
        (rspEscape [0x24, 0x00, 0x41]).length).2 = 3 ∧
    (rspUnescape (fun i => (rspEscape [0x24, 0x00, 0x41]).getD i 0)
        (rspEscape [0x24, 0x00, 0x41]).length).1 0 = 0x24 := by
  have h := escape_unescape_roundtrip [0x24, 0x00, 0x41]
    (fun i => (rspEscape [0x24, 0x00, 0x41]).getD i 0) (fun i _ => rfl)
  exact ⟨h.1, (h.2 0 (by norm_num)).trans (by decide)⟩

open Utils in
/-- C9: when the byte list in the buffer ends in a `}` that starts an
escape, `rspUnescape` reads index `len`, one byte past the stated
length; when it does not, every index read or written is strictly below
`len`. -/
theorem rspUnescape_access_bounds (L : List Nat) (mem : Nat → Nat) (len : Nat)
    (hlen : len = L.length)
    (hagree : ∀ i, i < L.length → mem i = L.getD i 0) :
    (noTrailingEsc L = false → len ∈ (rspUnescapeLoop mem len 0 0).2.1) ∧
    (noTrailingEsc L = true →
      (∀ i ∈ (rspUnescapeLoop mem len 0 0).2.1, i < len) ∧
      (∀ i ∈ (rspUnescapeLoop mem len 0 0).2.2, i < len)) := by
  subst hlen
  constructor
  · intro hwf
    have h := rspUnescapeLoop_oob L mem 0 0 (Nat.le_refl 0)
      (by intro i hi; simpa using hagree i hi) hwf
    simpa using h
  · intro hwf
    have h := rspUnescapeLoop_spec L mem 0 0 (Nat.le_refl 0)
      (by intro i hi; simpa using hagree i hi) hwf
    simp only [Nat.zero_add] at h
    exact ⟨h.2.2.2.1, h.2.2.2.2⟩

open Utils in
/-- Witness for C9: a buffer ending in a lone `}` reads index `len = 1`;
a buffer holding a single plain byte stays below `len`. -/
theorem rspUnescape_access_bounds_witness :
    1 ∈ (rspUnescapeLoop (fun _ => 0x7d) 1 0 0).2.1 ∧
    (∀ i ∈ (rspUnescapeLoop (fun _ => 0x41) 1 0 0).2.1, i < 1) ∧
    (∀ i ∈ (rspUnescapeLoop (fun _ => 0x41) 1 0 0).2.2, i < 1) := by
  have h1 := (rspUnescape_access_bounds [0x7d] (fun _ => 0x7d) 1 rfl
    (by intro i hi; have h0 : i = 0 := by simpa using hi
        subst h0; rfl)).1 (by decide)
  have h2 := (rspUnescape_access_bounds [0x41] (fun _ => 0x41) 1 rfl
    (by intro i hi; have h0 : i = 0 := by simpa using hi
        subst h0; rfl)).2 (by decide)
  exact ⟨h1, h2.1, h2.2⟩

/-! ## The hex rendering and parsing round trip (claim C1) -/

namespace Utils

theorem and_255_eq_mod (x : Nat) : x &&& 255 = x % 256 := by
  have h := Nat.and_pow_two_sub_one_eq_mod x 8
  norm_num at h
  exact h

theorem and_15_eq_mod (x : Nat) : x &&& 15 = x % 16 := by
  have h := Nat.and_pow_two_sub_one_eq_mod x 4
  norm_num at h
  exact h

theorem shiftRight4_eq_div (x : Nat) : x >>> 4 = x / 16 := by
  rw [Nat.shiftRight_eq_div_pow]

/-- The high nibble computed by `regVal2Hex`: `(byte >> 4) & 0xf` with
`byte = val & 0xff` is `val / 16 % 16`. -/
theorem byteHi_eq (val : Nat) : (val &&& 255) >>> 4 &&& 15 = val / 16 % 16 := by
  rw [and_255_eq_mod, shiftRight4_eq_div, and_15_eq_mod,
    show (256 : Nat) = 16 * 16 from by norm_num, Nat.mod_mul_right_div_self]
  exact Nat.mod_mod_of_dvd _ (dvd_refl 16)

/-- The low nibble computed by `regVal2Hex`: `byte & 0xf` with
`byte = val & 0xff` is `val % 16`. -/
theorem byteLo_eq (val : Nat) : (val &&& 255) &&& 15 = val % 16 := by
  rw [and_255_eq_mod, and_15_eq_mod]
  exact Nat.mod_mod_of_dvd _ (by norm_num)

/-- `char2Hex` inverts `hex2Char` on nibble values. -/
theorem char2Hex_hex2Char : ∀ d : Nat, d < 16 → char2Hex (hex2Char d : Int) = d := by
  decide

/-- One `val = (val << 4) | digit` step of the parsers equals
`val * 16 + digit` when the digit is a nibble and no overflow occurs. -/
theorem accum_step (val d : Nat) (hd : d < 16) (hb : val * 16 + d < 2 ^ 64) :
    (val <<< 4) % 2 ^ 64 ||| d = val * 16 + d := by
  have h1 : val <<< 4 = val * 16 := by rw [Nat.shiftLeft_eq]
  have h2 : val * 16 % 2 ^ 64 = val * 16 := Nat.mod_eq_of_lt (by omega)
  have h3 : d < 2 ^ 4 := lt_of_lt_of_le hd (by norm_num)
  have h4 := Nat.mul_add_lt_is_or h3 val
  rw [h1, h2, show val * 16 = 2 ^ 4 * val from by ring]
  exact h4.symm

theorem regVal2HexLEAux_untouched : ∀ (r val : Nat) (buf : Nat → Nat) (n j : Nat),
    j < n * 2 → regVal2HexLEAux val buf n r j = buf j := by
  intro r
  induction r with
  | zero => intro val buf n j hj; rfl
  | succ r ih =>
    intro val buf n j hj
    simp only [regVal2HexLEAux]
    rw [ih (val / 256) _ (n + 1) j (by omega),
      wr_other _ _ _ _ (by omega), wr_other _ _ _ _ (by omega)]

/-- The little-endian writer deposits at position `n + i` the two hex
digits of byte `i` of `val`. -/
theorem regVal2HexLEAux_get : ∀ (r val : Nat) (buf : Nat → Nat) (n i : Nat), i < r →
    regVal2HexLEAux val buf n r ((n + i) * 2) = hex2Char (val / 256 ^ i / 16 % 16) ∧
    regVal2HexLEAux val buf n r ((n + i) * 2 + 1) = hex2Char (val / 256 ^ i % 16) := by
  intro r
  induction r with
  | zero => intro val buf n i hi; omega
  | succ r ih =>
    intro val buf n i hi
    cases i with
    | zero =>
      simp only [regVal2HexLEAux, Nat.add_zero]
      constructor
      · rw [regVal2HexLEAux_untouched r (val / 256) _ (n + 1) (n * 2) (by omega),
          wr_other _ _ _ _ (by omega), wr_same, pow_zero, Nat.div_one, byteHi_eq]
      · rw [regVal2HexLEAux_untouched r (val / 256) _ (n + 1) (n * 2 + 1) (by omega),
          wr_same, pow_zero, Nat.div_one, byteLo_eq]
    | succ i' =>
      simp only [regVal2HexLEAux]
      constructor
      · rw [show (n + (i' + 1)) * 2 = ((n + 1) + i') * 2 from by ring]
        rw [(ih (val / 256) _ (n + 1) i' (by omega)).1,
          Nat.div_div_eq_div_mul val 256 (256 ^ i'),
          show (256 : Nat) * 256 ^ i' = 256 ^ (i' + 1) from by rw [pow_succ]; ring]
      · rw [show (n + (i' + 1)) * 2 + 1 = ((n + 1) + i') * 2 + 1 from by ring]
        rw [(ih (val / 256) _ (n + 1) i' (by omega)).2,
          Nat.div_div_eq_div_mul val 256 (256 ^ i'),
          show (256 : Nat) * 256 ^ i' = 256 ^ (i' + 1) from by rw [pow_succ]; ring]

theorem regVal2HexBEAux_untouched : ∀ (n val : Nat) (buf : Nat → Nat) (j : Nat),
    n * 2 ≤ j → regVal2HexBEAux val buf n j = buf j := by
  intro n
  induction n with
  | zero => intro val buf j hj; rfl
  | succ n ih =>
    intro val buf j hj
    simp only [regVal2HexBEAux]
    rw [ih (val / 256) _ j (by omega),
      wr_other _ _ _ _ (by omega), wr_other _ _ _ _ (by omega)]

/-- The big-endian writer deposits at position `j` the two hex digits of
byte `n - 1 - j` of `val`. -/
theorem regVal2HexBEAux_get : ∀ (n val : Nat) (buf : Nat → Nat) (j : Nat), j < n →
    regVal2HexBEAux val buf n (j * 2) = hex2Char (val / 256 ^ (n - 1 - j) / 16 % 16) ∧
    regVal2HexBEAux val buf n (j * 2 + 1) = hex2Char (val / 256 ^ (n - 1 - j) % 16) := by
  intro n
  induction n with
  | zero => intro val buf j hj; omega
  | succ n ih =>
    intro val buf j hj
    simp only [regVal2HexBEAux]
    by_cases hjn : j = n
    · subst hjn
      constructor
      · rw [regVal2HexBEAux_untouched j (val / 256) _ (j * 2) (by omega),
          wr_other _ _ _ _ (by omega), wr_same,
          show j + 1 - 1 - j = 0 from by omega, pow_zero, Nat.div_one, byteHi_eq]
      · rw [regVal2HexBEAux_untouched j (val / 256) _ (j * 2 + 1) (by omega),
          wr_same, show j + 1 - 1 - j = 0 from by omega, pow_zero, Nat.div_one,
          byteLo_eq]
    · have hj2 : j < n := by omega
      constructor
      · rw [(ih (val / 256) _ j hj2).1,
          Nat.div_div_eq_div_mul val 256 (256 ^ (n - 1 - j)),
          show (256 : Nat) * 256 ^ (n - 1 - j) = 256 ^ (n + 1 - 1 - j) from by
            rw [show n + 1 - 1 - j = (n - 1 - j) + 1 from by omega, pow_succ]; ring]
      · rw [(ih (val / 256) _ j hj2).2,
          Nat.div_div_eq_div_mul val 256 (256 ^ (n - 1 - j)),
          show (256 : Nat) * 256 ^ (n - 1 - j) = 256 ^ (n + 1 - 1 - j) from by
            rw [show n + 1 - 1 - j = (n - 1 - j) + 1 from by omega, pow_succ]; ring]

/-- The little-endian parser on a buffer whose position `i` holds the
hex digits of byte `i` of `v` accumulates `val * 256 ^ n + v % 256 ^ n`. -/
theorem hex2RegValLEAux_spec (buf : Nat → Nat) (v : Nat) :
    ∀ (n val : Nat),
      (∀ i, i < n → buf (i * 2) = hex2Char (v / 256 ^ i / 16 % 16) ∧
        buf (i * 2 + 1) = hex2Char (v / 256 ^ i % 16)) →
      val * 256 ^ n + v % 256 ^ n < 2 ^ 64 →
      hex2RegValLEAux buf n val = val * 256 ^ n + v % 256 ^ n := by
  intro n
  induction n with
  | zero => intro val hdig hb; simp [hex2RegValLEAux, Nat.mod_one]
  | succ n ih =>
    intro val hdig hb
    have hd := hdig n (by omega)
    have hhi : v / 256 ^ n / 16 % 16 < 16 := Nat.mod_lt _ (by norm_num)
    have hlo : v / 256 ^ n % 16 < 16 := Nat.mod_lt _ (by norm_num)
    have hbyte : (v / 256 ^ n / 16 % 16) * 16 + v / 256 ^ n % 16 = v / 256 ^ n % 256 := by
      have h := @Nat.mod_mul 16 16 (v / 256 ^ n)
      norm_num at h
      omega
    have hkey : (v / 256 ^ n % 256) * 256 ^ n + v % 256 ^ n = v % 256 ^ (n + 1) := by
      have h := @Nat.mod_mul (256 ^ n) 256 v
      rw [show (256 : Nat) ^ n * 256 = 256 ^ (n + 1) from by rw [pow_succ]] at h
      rw [h]
      ring
    have hval2eq : (val * 256 + v / 256 ^ n % 256) * 256 ^ n + v % 256 ^ n
        = val * 256 ^ (n + 1) + v % 256 ^ (n + 1) := by
      rw [← hkey]
      ring
    have hval2lt : (val * 256 + v / 256 ^ n % 256) * 256 ^ n + v % 256 ^ n < 2 ^ 64 := by
      rw [hval2eq]
      exact hb
    have hval2small : val * 256 + v / 256 ^ n % 256 < 2 ^ 64 :=
      lt_of_le_of_lt
        (le_trans (Nat.le_mul_of_pos_right _ (by positivity)) (Nat.le_add_right _ _))
        hval2lt
    simp only [hex2RegValLEAux]
    rw [hd.1, hd.2, char2Hex_hex2Char _ hhi, char2Hex_hex2Char _ hlo,
      accum_step val _ hhi (by omega), accum_step _ _ hlo (by omega),
      show (val * 16 + v / 256 ^ n / 16 % 16) * 16 + v / 256 ^ n % 16
          = val * 256 + v / 256 ^ n % 256 from by rw [← hbyte]; ring,
      ih (val * 256 + v / 256 ^ n % 256) (fun i h2 => hdig i (by omega)) hval2lt]
    exact hval2eq

/-- The big-endian parser on a buffer whose position `j` holds the hex
digits of byte `N - 1 - j` of `v`. -/
theorem hex2RegValBEAux_spec (buf : Nat → Nat) (v N : Nat) :
    ∀ (r n val : Nat), n + r = N →
      (∀ j, n ≤ j → j < N →
        buf (j * 2) = hex2Char (v / 256 ^ (N - 1 - j) / 16 % 16) ∧
        buf (j * 2 + 1) = hex2Char (v / 256 ^ (N - 1 - j) % 16)) →
      val * 256 ^ r + v % 256 ^ r < 2 ^ 64 →
      hex2RegValBEAux buf r n val = val * 256 ^ r + v % 256 ^ r := by
  intro r
  induction r with
  | zero => intro n val hN hdig hb; simp [hex2RegValBEAux, Nat.mod_one]
  | succ r ih =>
    intro n val hN hdig hb
    have hd := hdig n (Nat.le_refl n) (by omega)
    rw [show N - 1 - n = r from by omega] at hd
    have hhi : v / 256 ^ r / 16 % 16 < 16 := Nat.mod_lt _ (by norm_num)
    have hlo : v / 256 ^ r % 16 < 16 := Nat.mod_lt _ (by norm_num)
    have hbyte : (v / 256 ^ r / 16 % 16) * 16 + v / 256 ^ r % 16 = v / 256 ^ r % 256 := by
      have h := @Nat.mod_mul 16 16 (v / 256 ^ r)
      norm_num at h
      omega
    have hkey : (v / 256 ^ r % 256) * 256 ^ r + v % 256 ^ r = v % 256 ^ (r + 1) := by
      have h := @Nat.mod_mul (256 ^ r) 256 v
      rw [show (256 : Nat) ^ r * 256 = 256 ^ (r + 1) from by rw [pow_succ]] at h
      rw [h]
      ring
    have hval2eq : (val * 256 + v / 256 ^ r % 256) * 256 ^ r + v % 256 ^ r
        = val * 256 ^ (r + 1) + v % 256 ^ (r + 1) := by
      rw [← hkey]
      ring
    have hval2lt : (val * 256 + v / 256 ^ r % 256) * 256 ^ r + v % 256 ^ r < 2 ^ 64 := by
      rw [hval2eq]
      exact hb
    have hval2small : val * 256 + v / 256 ^ r % 256 < 2 ^ 64 :=
      lt_of_le_of_lt
        (le_trans (Nat.le_mul_of_pos_right _ (by positivity)) (Nat.le_add_right _ _))
        hval2lt
    simp only [hex2RegValBEAux]
    rw [hd.1, hd.2, char2Hex_hex2Char _ hhi, char2Hex_hex2Char _ hlo,
      accum_step val _ hhi (by omega), accum_step _ _ hlo (by omega),
      show (val * 16 + v / 256 ^ r / 16 % 16) * 16 + v / 256 ^ r % 16
          = val * 256 + v / 256 ^ r % 256 from by rw [← hbyte]; ring,
      ih (n + 1) (val * 256 + v / 256 ^ r % 256) (by omega)
        (fun j h1 h2 => hdig j (by omega) h2) hval2lt]
    exact hval2eq

end Utils

open Utils in
/-- C1 (amended): rendering a `u64` value `v` to hex with
`regVal2Hex (v, buf, w, endian)` and parsing the result back with
`hex2RegVal (buf, w, endian)` yields `v % 2 ^ (8 * w)` — i.e. the low
`w` bytes of `v` — for both endianness choices and every width
`w ≤ 8`; the round trip yields `v` itself exactly when `v < 2 ^ (8 * w)`
(in particular, always, for `w = 8`). -/
theorem hex_roundtrip_mod (v : Nat) (buf : Nat → Nat) (numBytes : Nat) (e : Bool)
    (_hv : v < 2 ^ 64) (hn : numBytes ≤ 8) :
    hex2RegVal (regVal2Hex v buf numBytes e) numBytes e = v % 256 ^ numBytes := by
  have hbound : 0 * 256 ^ numBytes + v % 256 ^ numBytes < 2 ^ 64 := by
    have h1 : v % 256 ^ numBytes < 256 ^ numBytes := Nat.mod_lt _ (by positivity)
    have h2 : (256 : Nat) ^ numBytes ≤ 256 ^ 8 := Nat.pow_le_pow_right (by norm_num) hn
    have h3 : (256 : Nat) ^ 8 = 2 ^ 64 := by norm_num
    omega
  cases e with
  | true =>
    have hbuf : regVal2Hex v buf numBytes true
        = wr (regVal2HexLEAux v buf 0 numBytes) (numBytes * 2) 0 := by
      simp [regVal2Hex]
    have hdig : ∀ i, i < numBytes →
        (regVal2Hex v buf numBytes true) (i * 2) = hex2Char (v / 256 ^ i / 16 % 16) ∧
        (regVal2Hex v buf numBytes true) (i * 2 + 1) = hex2Char (v / 256 ^ i % 16) := by
      intro i hi
      rw [hbuf]
      constructor
      · rw [wr_other _ _ _ _ (by omega)]
        have h := (regVal2HexLEAux_get numBytes v buf 0 i hi).1
        rw [show (0 + i) * 2 = i * 2 from by ring] at h
        exact h
      · rw [wr_other _ _ _ _ (by omega)]
        have h := (regVal2HexLEAux_get numBytes v buf 0 i hi).2
        rw [show (0 + i) * 2 + 1 = i * 2 + 1 from by ring] at h
        exact h
    show hex2RegValLEAux (regVal2Hex v buf numBytes true) numBytes 0 = _
    rw [hex2RegValLEAux_spec (regVal2Hex v buf numBytes true) v numBytes 0 hdig hbound]
    simp
  | false =>
    have hbuf : regVal2Hex v buf numBytes false
        = wr (regVal2HexBEAux v buf numBytes) (numBytes * 2) 0 := by
      simp [regVal2Hex]
    have hdig : ∀ j, j < numBytes →
        (regVal2Hex v buf numBytes false) (j * 2)
          = hex2Char (v / 256 ^ (numBytes - 1 - j) / 16 % 16) ∧
        (regVal2Hex v buf numBytes false) (j * 2 + 1)
          = hex2Char (v / 256 ^ (numBytes - 1 - j) % 16) := by
      intro j hj
      rw [hbuf]
      constructor
      · rw [wr_other _ _ _ _ (by omega)]
        exact (regVal2HexBEAux_get numBytes v buf j hj).1
      · rw [wr_other _ _ _ _ (by omega)]
        exact (regVal2HexBEAux_get numBytes v buf j hj).2
    show hex2RegValBEAux (regVal2Hex v buf numBytes false) numBytes 0 0 = _
    rw [hex2RegValBEAux_spec (regVal2Hex v buf numBytes false) v numBytes numBytes 0 0
      (by omega) (fun j h0 hj => hdig j hj) hbound]
    simp

open Utils in
/-- C1 counterexample: for `v = 256` at byte width 1 (little-endian) the
rendering writes only the low byte `"00"`, so parsing returns 0, not
256: the round trip does not yield `v` for every `u64` value at widths
below 8. -/
theorem hex_roundtrip_cex :
    hex2RegVal (regVal2Hex 256 (fun _ => 0) 1 true) 1 true ≠ 256 := by
  decide

open Utils in
/-- Witness for C1 at `v = 0xdeadbeef`, width 4, big-endian. -/
theorem hex_roundtrip_mod_witness :
    hex2RegVal (regVal2Hex 3735928559 (fun _ => 0) 4 false) 4 false
      = 3735928559 % 256 ^ 4 :=
  hex_roundtrip_mod 3735928559 (fun _ => 0) 4 false (by norm_num) (by norm_num)

/-! ## Theorems about the core-manager state (claims C4, C5, C6, C7, C8) -/

open GdbServer GdbServer.CoreManager in
/-- C4: after `CoreState::setStopReason (res)`, the core has an
unreported stop (`hasUnreportedStop` is true) if and only if `res` is
not `NONE`; moreover `res` itself is the recorded stop reason, so a
false `mStopReported` always goes with a pending non-`NONE` stop
reason. -/
theorem setStopReason_pending (s : CoreState) (res : ITarget.ResumeRes) :
    ((s.setStopReason res).hasUnreportedStop = true ↔ res ≠ ITarget.ResumeRes.NONE) ∧
    (s.setStopReason res).stopReason = res := by
  cases res <;>
    simp [CoreState.setStopReason, CoreState.hasUnreportedStop, CoreState.stopReason]

open GdbServer GdbServer.CoreManager in
/-- C5: a freshly constructed `CoreState` is live, has no unreported
stop (`mStopReported = true`), and is not running: its resume type is
`NONE`, so `isRunning` is false. -/
theorem coreState_init_spec :
    CoreState.init.isLive = true ∧
    CoreState.init.hasUnreportedStop = false ∧
    CoreState.init.mStopReported = true ∧
    CoreState.init.mResumeType = ITarget.ResumeType.NONE ∧
    CoreState.init.isRunning = false := by
  simp [CoreState.init, CoreState.isLive, CoreState.hasUnreportedStop,
    CoreState.isRunning]

open GdbServer GdbServer.CoreManager in
/-- C6: indexing a `CoreManager` whose state vector has `mNumCores`
entries with an index below `mNumCores` returns the core state at that
index, and indexing at or beyond `mNumCores` hits the assertion
(modelled as `none`), so under the precondition the failure branch is
unreachable. -/
theorem coreManager_index_spec (m : CoreManager) (idx : Nat)
    (hinv : m.mCoreStates.length = m.mNumCores) :
    (idx < m.mNumCores →
      m.get idx = some (m.mCoreStates.getD idx CoreState.init)) ∧
    (m.mNumCores ≤ idx → m.get idx = none) := by
  constructor
  · intro h
    have hlt : idx < m.mCoreStates.length := by omega
    simp [CoreManager.get, if_pos h, List.getD_eq_getElem?_getD,
      List.getElem?_eq_getElem hlt]
  · intro h
    simp [CoreManager.get, if_neg (by omega : ¬ idx < m.mNumCores)]

open GdbServer GdbServer.CoreManager in
/-- Witness for C6 at a one-core manager: index 0 succeeds, index 5 hits
the assertion. -/
theorem coreManager_index_spec_witness :
    (CoreManager.mk 1 1 [CoreState.init]).get 0 = some CoreState.init ∧
    (CoreManager.mk 1 1 [CoreState.init]).get 5 = none := by
  have h := coreManager_index_spec (CoreManager.mk 1 1 [CoreState.init]) 0 rfl
  have h5 := coreManager_index_spec (CoreManager.mk 1 1 [CoreState.init]) 5 rfl
  exact ⟨h.1 (by decide), h5.2 (by decide)⟩

open GdbServer in
/-- C7: the packet capacity `RSP_PKT_SIZE` equals
`2 * RISCV_NUM_REG_BYTES + 1 = 2 * 33 * 4 + 1 = 265` (which exceeds
256), and it is never below 256 nor below `2 * RISCV_NUM_REG_BYTES + 1`. -/
theorem rsp_pkt_size_spec :
    RSP_PKT_SIZE = 265 ∧
    RISCV_NUM_REG_BYTES = 33 * 4 ∧
    256 < 2 * RISCV_NUM_REG_BYTES + 1 ∧
    256 ≤ RSP_PKT_SIZE ∧
    2 * RISCV_NUM_REG_BYTES + 1 ≤ RSP_PKT_SIZE := by
  decide

open GdbServer in
/-- C8: the PID to core-number map is `pid ↦ pid - 1` and its inverse is
`coreNum ↦ coreNum + 1`; they are mutually inverse on `unsigned int`
values, with PIDs at least 1. -/
theorem pid_coreNum_roundtrip (p n : Nat) (hp1 : 1 ≤ p) (hp2 : p < 2 ^ 32)
    (hn : n < 2 ^ 32) :
    CoreManager.pid2CoreNum p = p - 1 ∧
    (n + 1 < 2 ^ 32 → CoreManager.coreNum2Pid n = n + 1) ∧
    CoreManager.coreNum2Pid (CoreManager.pid2CoreNum p) = p ∧
    CoreManager.pid2CoreNum (CoreManager.coreNum2Pid n) = n := by
  unfold CoreManager.pid2CoreNum CoreManager.coreNum2Pid
  omega

open GdbServer in
/-- Witness for C8 at PID 5 and core number 7. -/
theorem pid_coreNum_roundtrip_witness :
    CoreManager.pid2CoreNum 5 = 4 ∧
    CoreManager.coreNum2Pid 7 = 8 ∧
    CoreManager.coreNum2Pid (CoreManager.pid2CoreNum 5) = 5 ∧
    CoreManager.pid2CoreNum (CoreManager.coreNum2Pid 7) = 7 := by
  have h5 := pid_coreNum_roundtrip 5 7 (by decide) (by norm_num) (by norm_num)
  exact ⟨h5.1, h5.2.1 (by norm_num), h5.2.2.1, h5.2.2.2⟩

/-! ## Theorems about the hex utilities (claim C10) -/

open Utils in
/-- C10: `char2Hex` maps `'0'..'9'` (48..57) to 0..9, `'a'..'f'`
(97..102) and `'A'..'F'` (65..70) to 10..15, and every other `int` to
255 (the literal `-1` converted to the `uint8_t` return type); a caller
such as `hex2Val` therefore accumulates 255 for a bad digit rather than
receiving an error signal. -/
theorem char2Hex_spec (c : Int) :
    (97 ≤ c ∧ c ≤ 102 → char2Hex c = (c - 97).toNat + 10 ∧ char2Hex c < 16) ∧
    (48 ≤ c ∧ c ≤ 57 → char2Hex c = (c - 48).toNat ∧ char2Hex c < 16) ∧
    (65 ≤ c ∧ c ≤ 70 → char2Hex c = (c - 65).toNat + 10 ∧ char2Hex c < 16) ∧
    (¬ (97 ≤ c ∧ c ≤ 102) → ¬ (48 ≤ c ∧ c ≤ 57) → ¬ (65 ≤ c ∧ c ≤ 70) →
      char2Hex c = 255 ∧
      ∀ buf : Nat → Nat, (buf 0 : Int) = c → hex2Val buf 1 = 255) := by
  refine ⟨?_, ?_, ?_, ?_⟩
  · intro h
    unfold char2Hex
    rw [if_pos h]
    omega
  · intro h
    unfold char2Hex
    rw [if_neg (by omega), if_pos h]
    omega
  · intro h
    unfold char2Hex
    rw [if_neg (by omega), if_neg (by omega), if_pos h]
    omega
  · intro h1 h2 h3
    have h255 : char2Hex c = 255 := by
      unfold char2Hex
      rw [if_neg h1, if_neg h2, if_neg h3]
      decide
    refine ⟨h255, ?_⟩
    intro buf hbuf
    show hex2ValAux buf 1 0 0 = 255
    unfold hex2ValAux
    rw [hbuf, h255]
    unfold hex2ValAux
    decide

open Utils in
/-- Witness for C10 at `'d'` (100), `'7'` (55), `'B'` (66) and the bad
digit `'z'` (122). -/
theorem char2Hex_spec_witness :
    char2Hex 100 = 13 ∧ char2Hex 55 = 7 ∧ char2Hex 66 = 11 ∧
    char2Hex 122 = 255 ∧ hex2Val (fun _ => 122) 1 = 255 := by
  have hd := (char2Hex_spec 100).1 (by decide)
  have h7 := (char2Hex_spec 55).2.1 (by decide)
  have hB := (char2Hex_spec 66).2.2.1 (by decide)
  have hz := (char2Hex_spec 122).2.2.2 (by decide) (by decide) (by decide)
  exact ⟨hd.1, h7.1, hB.1, hz.1, hz.2 (fun _ => 122) rfl⟩

end EmbDebug
